import Mathlib

/-!
Verification of the CRD merging algorithm of kube-core (src/kube-core/src/crd.rs).

The embedding mirrors the Rust module `v1`: a descriptor (`Crd`) carries a spec
with an API group, names (kind) and an ordered list of versioned schemas; the
builder `CrdMerger` holds the input list plus the optional `served` and `root`
selectors; `CrdMerger.merge` is a direct translation of `merge`, with every
fallible operation of the source (`versions[0]` indexing, the `.unwrap()` on
the first element) made explicit: `MergeResult.panic` marks the states in which
the Rust program would panic.
-/

namespace KubeCrd

/-- A named schema version of a resource kind (models `CustomResourceDefinitionVersion`).
The schema document and the served/storage flags are opaque to the merge
algorithm; the `payload` field stands for all of them, so that two distinct
descriptor instances declaring the same version name can be told apart. -/
structure VersionedSchema where
  name : String
  payload : Nat
deriving DecidableEq, Repr

/-- Naming metadata of a descriptor; the merge algorithm only reads `kind`. -/
structure CrdNames where
  kind : String
deriving DecidableEq, Repr

/-- The spec of a custom resource definition, restricted to the fields the
merge algorithm reads: `group`, `names.kind` and `versions`. -/
structure CrdSpec where
  group : String
  names : CrdNames
  versions : List VersionedSchema
deriving DecidableEq, Repr

/-- A custom resource definition descriptor. -/
structure Crd where
  spec : CrdSpec
deriving DecidableEq, Repr

/-- Possible errors when merging CRDs (enum `CrdError` of the source). -/
inductive CrdError where
  | MissingCrds
  | MissingServedApi (v : String)
  | MissingRootVersion (v : String)
  | TooManyVersions
  | ApiGroupMismatch
  | KindMismatch
deriving DecidableEq, Repr

/-- Merger for multi-version setups of crd schemas (struct `CrdMerger`). -/
structure CrdMerger where
  crds : List Crd
  served : Option String
  root : Option String
deriving DecidableEq, Repr

/-- Constructor `CrdMerger::new`: no selectors set. -/
def CrdMerger.new (crds : List Crd) : CrdMerger :=
  { crds := crds, served := none, root := none }

/-- Builder method `CrdMerger::served` (renamed: the field keeps the source name). -/
def CrdMerger.setServed (m : CrdMerger) (served_apiversion : String) : CrdMerger :=
  { m with served := some served_apiversion }

/-- Builder method `CrdMerger::root` (renamed: the field keeps the source name). -/
def CrdMerger.setRoot (m : CrdMerger) (root_apiversion : String) : CrdMerger :=
  { m with root := some root_apiversion }

/-- Result of `merge`: `Ok`, a classified error, or a Rust panic. -/
inductive MergeResult where
  | panic
  | err (e : CrdError)
  | ok (c : Crd)
deriving DecidableEq, Repr

/-- The root search `self.crds.iter().find(|c| c.spec.versions[0].name == g)`.
The predicate indexes `versions[0]`, so a descriptor with no version makes the
Rust iteration panic: outer `none` is that panic, `some none` is "not found",
`some (some c)` is the first match. -/
def findRoot (g : String) : List Crd → Option (Option Crd)
  | [] => some none
  | c :: rest =>
    match c.spec.versions with
    | [] => none
    | v :: _ => if v.name = g then some (some c) else findRoot g rest

/-- The validation loop of `merge`: for each crd in order, compare its group
and then its kind against the root's; the first mismatch decides the error. -/
def validate (group kind : String) : List Crd → Option CrdError
  | [] => none
  | c :: rest =>
    if c.spec.group ≠ group then some CrdError.ApiGroupMismatch
    else if c.spec.names.kind ≠ kind then some CrdError.KindMismatch
    else validate group kind rest

/-- The consolidation loop of `merge`: starting from the root's version list,
walk the inputs in order; a crd whose `versions[0].name` equals the root's
version name is skipped, any other crd has its `versions[0]` appended. The
`versions[0]` access panics (`none`) on a descriptor with no version. -/
def consolidate (root_ver : String) (acc : List VersionedSchema) :
    List Crd → Option (List VersionedSchema)
  | [] => some acc
  | crd :: rest =>
    match crd.spec.versions with
    | [] => none
    | v :: _ =>
      if v.name = root_ver then consolidate root_ver acc rest
      else consolidate root_ver (acc ++ [v]) rest

/-- The tail of `merge` once the root descriptor is resolved: read
`root.spec.versions[0].name` (panic if absent), run the validation loop, then
consolidate every input's version into the root's version list. -/
def mergeWithRoot (crds : List Crd) (root : Crd) : MergeResult :=
  match root.spec.versions with
  | [] => MergeResult.panic
  | rv :: _ =>
    match validate root.spec.group root.spec.names.kind crds with
    | some e => MergeResult.err e
    | none =>
      match consolidate rv.name root.spec.versions crds with
      | none => MergeResult.panic
      | some vs => MergeResult.ok { root with spec := { root.spec with versions := vs } }

/-- Translation of `CrdMerger::merge`: emptiness check, exactly-one-version
check, root resolution (selected by name, or the first input, whose `.unwrap()`
is the `panic` of the `[]` branch), then validation and consolidation. -/
def CrdMerger.merge (m : CrdMerger) : MergeResult :=
  if m.crds.isEmpty then MergeResult.err CrdError.MissingCrds
  else if m.crds.any (fun c => c.spec.versions.length ≠ 1) then
    MergeResult.err CrdError.TooManyVersions
  else
    match m.root with
    | some g =>
      match findRoot g m.crds with
      | none => MergeResult.panic
      | some none => MergeResult.err (CrdError.MissingRootVersion g)
      | some (some r) => mergeWithRoot m.crds r
    | none =>
      match m.crds with
      | [] => MergeResult.panic
      | c :: _ => mergeWithRoot m.crds c

/-- Name of the first version of a descriptor, when it has one. -/
def firstVerName (c : Crd) : Option String :=
  (c.spec.versions.head?).map VersionedSchema.name

/-- A single-version descriptor with the given group, kind, version name and
schema payload, used for concrete test inputs. -/
def mkCrd (group kind vname : String) (payload : Nat) : Crd :=
  { spec := { group := group, names := { kind := kind },
              versions := [{ name := vname, payload := payload }] } }

/-- A descriptor with the given group, kind and an arbitrary list of versions. -/
def mkCrdVs (group kind : String) (vs : List VersionedSchema) : Crd :=
  { spec := { group := group, names := { kind := kind }, versions := vs } }

/-- Closed form of what the consolidation loop appends: the first version of
every input whose first version's name differs from the root's version name,
in input order. Used to state theorems about the output version sequence. -/
def nonRootVers (rv : String) (l : List Crd) : List VersionedSchema :=
  l.filterMap fun c =>
    (c.spec.versions.head?).bind fun v => if v.name = rv then none else some v

/-- Split a merged descriptor back into one single-version descriptor per
entry of its version sequence, each carrying the output's metadata. -/
def splitCrds (out : Crd) : List Crd :=
  out.spec.versions.map fun v => { out with spec := { out.spec with versions := [v] } }

/-!
Helper lemmas characterizing the three loops of `merge`.
-/

theorem validate_none_iff (g k : String) : ∀ l : List Crd,
    validate g k l = none ↔ ∀ c ∈ l, c.spec.group = g ∧ c.spec.names.kind = k := by
  intro l
  induction l with
  | nil => simp [validate]
  | cons c rest ih =>
    simp only [validate]
    split
    · rename_i hg
      simp only [List.mem_cons]
      constructor
      · intro h; exact absurd h (by simp)
      · intro h; exact absurd (h c (Or.inl rfl)).1 hg
    · split
      · rename_i hg hk
        constructor
        · intro h; exact absurd h (by simp)
        · intro h; exact absurd (h c (by simp)).2 hk
      · rename_i hg hk
        push_neg at hg hk
        rw [ih]
        constructor
        · intro h c' hc'
          rcases List.mem_cons.mp hc' with h1 | h2
          · subst h1; exact ⟨hg, hk⟩
          · exact h c' h2
        · intro h c' hc'; exact h c' (List.mem_cons_of_mem _ hc')

theorem validate_err_cases : ∀ (l : List Crd) (g k : String) (e : CrdError),
    validate g k l = some e →
    e = CrdError.ApiGroupMismatch ∨ e = CrdError.KindMismatch := by
  intro l
  induction l with
  | nil => intro g k e h; simp [validate] at h
  | cons c rest ih =>
    intro g k e h
    simp only [validate] at h
    split at h
    · exact Or.inl (by cases h; rfl)
    · split at h
      · exact Or.inr (by cases h; rfl)
      · exact ih g k e h

theorem consolidate_eq (rv : String) : ∀ (l : List Crd) (acc : List VersionedSchema),
    (∀ c ∈ l, c.spec.versions ≠ []) →
    consolidate rv acc l = some (acc ++ nonRootVers rv l) := by
  intro l
  induction l with
  | nil => intro acc h; simp [consolidate, nonRootVers]
  | cons c rest ih =>
    intro acc h
    have hc : c.spec.versions ≠ [] := h c (by simp)
    simp only [consolidate]
    split
    · rename_i hv
      exact absurd hv hc
    · rename_i v vs hv
      have hrest : ∀ c' ∈ rest, c'.spec.versions ≠ [] := fun c' hc' =>
        h c' (List.mem_cons_of_mem _ hc')
      by_cases hname : v.name = rv
      · rw [if_pos hname, ih acc hrest]
        simp [nonRootVers, hv, hname]
      · rw [if_neg hname, ih (acc ++ [v]) hrest]
        simp [nonRootVers, hv, hname]

theorem findRoot_some_some : ∀ (l : List Crd) (g : String) (c : Crd),
    findRoot g l = some (some c) →
    c ∈ l ∧ firstVerName c = some g := by
  intro l
  induction l with
  | nil => intro g c h; simp [findRoot] at h
  | cons c0 rest ih =>
    intro g c h
    simp only [findRoot] at h
    split at h
    · simp at h
    · rename_i v vs hv
      split at h
      · rename_i hname
        cases h
        exact ⟨by simp, by simp [firstVerName, hv, hname]⟩
      · obtain ⟨hmem, hfv⟩ := ih g c h
        exact ⟨List.mem_cons_of_mem _ hmem, hfv⟩

theorem findRoot_some_none : ∀ (l : List Crd) (g : String),
    (∀ c ∈ l, c.spec.versions ≠ []) →
    (∀ c ∈ l, firstVerName c ≠ some g) →
    findRoot g l = some none := by
  intro l
  induction l with
  | nil => intro g _ _; simp [findRoot]
  | cons c0 rest ih =>
    intro g hne habs
    simp only [findRoot]
    split
    · rename_i hv
      exact absurd hv (hne c0 (by simp))
    · rename_i v vs hv
      have hv0 : firstVerName c0 ≠ some g := habs c0 (by simp)
      have hname : ¬ v.name = g := by
        intro h; apply hv0; simp [firstVerName, hv, h]
      rw [if_neg hname]
      exact ih g (fun c hc => hne c (List.mem_cons_of_mem _ hc))
        (fun c hc => habs c (List.mem_cons_of_mem _ hc))

theorem findRoot_ne_none : ∀ (l : List Crd) (g : String),
    (∀ c ∈ l, c.spec.versions ≠ []) →
    findRoot g l ≠ none := by
  intro l
  induction l with
  | nil => intro g _; simp [findRoot]
  | cons c0 rest ih =>
    intro g hne
    simp only [findRoot]
    split
    · rename_i hv
      exact absurd hv (hne c0 (by simp))
    · rename_i v vs hv
      by_cases hname : v.name = g
      · simp [hname]
      · rw [if_neg hname]
        exact ih g (fun c hc => hne c (List.mem_cons_of_mem _ hc))

end KubeCrd
namespace KubeCrd

theorem mergeWithRoot_ok (crds : List Crd) (root : Crd) (rv : VersionedSchema)
    (hroot : root.spec.versions = [rv])
    (hval : validate root.spec.group root.spec.names.kind crds = none)
    (hne : ∀ c ∈ crds, c.spec.versions ≠ []) :
    mergeWithRoot crds root = MergeResult.ok
      { root with spec := { root.spec with versions := rv :: nonRootVers rv.name crds } } := by
  unfold mergeWithRoot
  split
  · rename_i heq
    rw [hroot] at heq
    cases heq
  · rename_i v vs heq
    rw [hroot] at heq
    injection heq with h1 h2
    subst h1
    subst h2
    rw [hval, hroot, consolidate_eq rv.name crds [rv] hne]
    rfl

theorem mergeWithRoot_err (crds : List Crd) (root : Crd) (e : CrdError)
    (v : VersionedSchema) (vs : List VersionedSchema)
    (hroot : root.spec.versions = v :: vs)
    (hval : validate root.spec.group root.spec.names.kind crds = some e) :
    mergeWithRoot crds root = MergeResult.err e := by
  unfold mergeWithRoot
  split
  · rename_i heq
    rw [hroot] at heq
    cases heq
  · rename_i v' vs' heq
    rw [hval]

end KubeCrd
namespace KubeCrd

theorem length_one_nonempty {c : Crd} (h : c.spec.versions.length = 1) :
    c.spec.versions ≠ [] := by
  intro hv
  rw [hv] at h
  simp at h

theorem length_one_elim {c : Crd} (h : c.spec.versions.length = 1) :
    ∃ rv, c.spec.versions = [rv] := by
  cases hv : c.spec.versions with
  | nil => rw [hv] at h; simp at h
  | cons v vs =>
    rw [hv] at h
    simp at h
    exact ⟨v, by simp [hv, h]⟩

theorem mergeWithRoot_ok_inv (crds : List Crd) (root : Crd) (out : Crd)
    (rv : VersionedSchema)
    (hroot : root.spec.versions = [rv])
    (hne : ∀ c ∈ crds, c.spec.versions ≠ [])
    (h : mergeWithRoot crds root = MergeResult.ok out) :
    validate root.spec.group root.spec.names.kind crds = none ∧
    out = { root with spec :=
              { root.spec with versions := rv :: nonRootVers rv.name crds } } := by
  cases hval : validate root.spec.group root.spec.names.kind crds with
  | some e =>
    rw [mergeWithRoot_err crds root e rv [] hroot hval] at h
    cases h
  | none =>
    rw [mergeWithRoot_ok crds root rv hroot hval hne] at h
    cases h
    exact ⟨rfl, rfl⟩

theorem merge_ok_inv (m : CrdMerger) (out : Crd)
    (h : m.merge = MergeResult.ok out) :
    ∃ root rv, root ∈ m.crds ∧ root.spec.versions = [rv] ∧
      (∀ c ∈ m.crds, c.spec.versions.length = 1) ∧
      validate root.spec.group root.spec.names.kind m.crds = none ∧
      out = { root with spec :=
                { root.spec with versions := rv :: nonRootVers rv.name m.crds } } ∧
      (∀ g, m.root = some g → rv.name = g) ∧
      (m.root = none → m.crds.head? = some root) := by
  unfold CrdMerger.merge at h
  split at h
  · cases h
  · split at h
    · cases h
    · rename_i hemp hany
      have hlen : ∀ c ∈ m.crds, c.spec.versions.length = 1 := by
        simp only [List.any_eq_true, decide_eq_true_eq] at hany
        push_neg at hany
        exact hany
      have hne : ∀ c ∈ m.crds, c.spec.versions ≠ [] := fun c hc =>
        length_one_nonempty (hlen c hc)
      split at h
      · rename_i g hg
        split at h
        · cases h
        · cases h
        · rename_i r hfind
          obtain ⟨hmem, hfv⟩ := findRoot_some_some m.crds g r hfind
          obtain ⟨rv, hrv⟩ := length_one_elim (hlen r hmem)
          obtain ⟨hval, hout⟩ := mergeWithRoot_ok_inv m.crds r out rv hrv hne h
          refine ⟨r, rv, hmem, hrv, hlen, hval, hout, ?_, ?_⟩
          · intro g' hg'
            rw [hg] at hg'
            cases hg'
            simp [firstVerName, hrv] at hfv
            exact hfv
          · intro hnone
            rw [hg] at hnone
            cases hnone
      · rename_i hnoroot
        split at h
        · cases h
        · rename_i c rest hcrds
          obtain ⟨rv, hrv⟩ : ∃ rv, c.spec.versions = [rv] := by
            apply length_one_elim
            apply hlen
            rw [hcrds]
            simp
          have hmem : c ∈ m.crds := by rw [hcrds]; simp
          obtain ⟨hval, hout⟩ := mergeWithRoot_ok_inv m.crds c out rv hrv hne h
          refine ⟨c, rv, hmem, hrv, hlen, hval, hout, ?_, ?_⟩
          · intro g' hg'
            rw [hnoroot] at hg'
            cases hg'
          · intro _
            rw [hcrds]
            rfl

end KubeCrd
namespace KubeCrd

theorem any_len_ne_one_false (l : List Crd)
    (hlen : ∀ c ∈ l, c.spec.versions.length = 1) :
    (l.any fun c => decide (c.spec.versions.length ≠ 1)) = false := by
  simp only [List.any_eq_false, decide_eq_true_eq]
  intro c hc
  simp [hlen c hc]

theorem merge_ok_none_root (c0 : Crd) (rest : List Crd) (srv : Option String)
    (rv : VersionedSchema)
    (hroot : c0.spec.versions = [rv])
    (hlen : ∀ c ∈ c0 :: rest, c.spec.versions.length = 1)
    (hval : validate c0.spec.group c0.spec.names.kind (c0 :: rest) = none) :
    (CrdMerger.mk (c0 :: rest) srv none).merge = MergeResult.ok
      { c0 with spec :=
          { c0.spec with versions := rv :: nonRootVers rv.name (c0 :: rest) } } := by
  have hne : ∀ c ∈ c0 :: rest, c.spec.versions ≠ [] := fun c hc =>
    length_one_nonempty (hlen c hc)
  simp only [CrdMerger.merge]
  rw [if_neg (by simp), if_neg (by rw [any_len_ne_one_false _ hlen]; simp)]
  exact mergeWithRoot_ok (c0 :: rest) c0 rv hroot hval hne

theorem merge_ok_some_root (crds : List Crd) (srv : Option String) (g : String)
    (r : Crd) (rv : VersionedSchema)
    (hne : crds ≠ [])
    (hfind : findRoot g crds = some (some r))
    (hroot : r.spec.versions = [rv])
    (hlen : ∀ c ∈ crds, c.spec.versions.length = 1)
    (hval : validate r.spec.group r.spec.names.kind crds = none) :
    (CrdMerger.mk crds srv (some g)).merge = MergeResult.ok
      { r with spec :=
          { r.spec with versions := rv :: nonRootVers rv.name crds } } := by
  have hne' : ∀ c ∈ crds, c.spec.versions ≠ [] := fun c hc =>
    length_one_nonempty (hlen c hc)
  simp only [CrdMerger.merge]
  rw [if_neg (by simp [List.isEmpty_iff, hne]),
      if_neg (by rw [any_len_ne_one_false _ hlen]; simp)]
  rw [hfind]
  exact mergeWithRoot_ok crds r rv hroot hval hne'

end KubeCrd
namespace KubeCrd

theorem mergeWithRoot_ne_panic (crds : List Crd) (root : Crd) (rv : VersionedSchema)
    (hroot : root.spec.versions = [rv])
    (hne : ∀ c ∈ crds, c.spec.versions ≠ []) :
    mergeWithRoot crds root ≠ MergeResult.panic := by
  cases hval : validate root.spec.group root.spec.names.kind crds with
  | some e => rw [mergeWithRoot_err crds root e rv [] hroot hval]; simp
  | none => rw [mergeWithRoot_ok crds root rv hroot hval hne]; simp

theorem mergeWithRoot_err_inv (crds : List Crd) (root : Crd) (e : CrdError)
    (h : mergeWithRoot crds root = MergeResult.err e) :
    validate root.spec.group root.spec.names.kind crds = some e := by
  unfold mergeWithRoot at h
  split at h
  · cases h
  · split at h
    · rename_i e' heq
      cases h
      exact heq
    · split at h <;> cases h

theorem merge_panic_free (m : CrdMerger) : m.merge ≠ MergeResult.panic := by
  intro h
  unfold CrdMerger.merge at h
  split at h
  · cases h
  · split at h
    · cases h
    · rename_i hemp hany
      have hlen : ∀ c ∈ m.crds, c.spec.versions.length = 1 := by
        simp only [List.any_eq_true, decide_eq_true_eq] at hany
        push_neg at hany
        exact hany
      have hne : ∀ c ∈ m.crds, c.spec.versions ≠ [] := fun c hc =>
        length_one_nonempty (hlen c hc)
      split at h
      · rename_i g hg
        split at h
        · rename_i hfind
          exact findRoot_ne_none m.crds g hne hfind
        · cases h
        · rename_i r hfind
          obtain ⟨hmem, _⟩ := findRoot_some_some m.crds g r hfind
          obtain ⟨rv, hrv⟩ := length_one_elim (hlen r hmem)
          exact mergeWithRoot_ne_panic m.crds r rv hrv hne h
      · rename_i hnoroot
        split at h
        · rename_i hcrds
          rw [hcrds] at hemp
          simp at hemp
        · rename_i c rest hcrds
          have hmem : c ∈ m.crds := by rw [hcrds]; simp
          obtain ⟨rv, hrv⟩ := length_one_elim (hlen c hmem)
          exact mergeWithRoot_ne_panic m.crds c rv hrv hne h

theorem merge_err_classified (m : CrdMerger) (e : CrdError)
    (h : m.merge = MergeResult.err e) :
    e = CrdError.MissingCrds ∨ e = CrdError.TooManyVersions ∨
    (∃ g, m.root = some g ∧ e = CrdError.MissingRootVersion g) ∨
    e = CrdError.ApiGroupMismatch ∨ e = CrdError.KindMismatch := by
  unfold CrdMerger.merge at h
  split at h
  · cases h
    exact Or.inl rfl
  · split at h
    · cases h
      exact Or.inr (Or.inl rfl)
    · split at h
      · rename_i g hg
        split at h
        · cases h
        · cases h
          exact Or.inr (Or.inr (Or.inl ⟨g, hg, rfl⟩))
        · rename_i r hfind
          have := validate_err_cases m.crds r.spec.group r.spec.names.kind e
            (mergeWithRoot_err_inv m.crds r e h)
          rcases this with h1 | h2
          · exact Or.inr (Or.inr (Or.inr (Or.inl h1)))
          · exact Or.inr (Or.inr (Or.inr (Or.inr h2)))
      · split at h
        · cases h
        · rename_i c rest hcrds
          have := validate_err_cases m.crds c.spec.group c.spec.names.kind e
            (mergeWithRoot_err_inv m.crds c e h)
          rcases this with h1 | h2
          · exact Or.inr (Or.inr (Or.inr (Or.inl h1)))
          · exact Or.inr (Or.inr (Or.inr (Or.inr h2)))

end KubeCrd
namespace KubeCrd

theorem nonRootVers_names (rv : String) : ∀ l : List Crd,
    (nonRootVers rv l).map VersionedSchema.name =
      (l.filterMap firstVerName).filter fun s => s ≠ rv := by
  intro l
  induction l with
  | nil => simp [nonRootVers]
  | cons c rest ih =>
    cases hv : c.spec.versions with
    | nil =>
      have h1 : nonRootVers rv (c :: rest) = nonRootVers rv rest := by
        simp [nonRootVers, hv]
      have h2 : List.filterMap firstVerName (c :: rest) =
          List.filterMap firstVerName rest := by
        simp [firstVerName, hv]
      rw [h1, h2]
      exact ih
    | cons v vs =>
      have h1 : nonRootVers rv (c :: rest) =
          (if v.name = rv then [] else [v]) ++ nonRootVers rv rest := by
        by_cases hname : v.name = rv <;> simp [nonRootVers, hv, hname]
      have h2 : List.filterMap firstVerName (c :: rest) =
          v.name :: List.filterMap firstVerName rest := by
        simp [firstVerName, hv]
      rw [h1, h2]
      by_cases hname : v.name = rv
      · simp [hname, List.filter_cons, ih]
      · simp [hname, List.filter_cons, ih]

theorem splitCrds_len (out : Crd) : ∀ c ∈ splitCrds out,
    c.spec.versions.length = 1 := by
  intro c hc
  simp only [splitCrds, List.mem_map] at hc
  obtain ⟨v, _, rfl⟩ := hc
  rfl

theorem splitCrds_group_kind (out : Crd) : ∀ c ∈ splitCrds out,
    c.spec.group = out.spec.group ∧ c.spec.names.kind = out.spec.names.kind := by
  intro c hc
  simp only [splitCrds, List.mem_map] at hc
  obtain ⟨v, _, rfl⟩ := hc
  exact ⟨rfl, rfl⟩

theorem splitCrds_firstVerNames (out : Crd) :
    (splitCrds out).filterMap firstVerName =
      out.spec.versions.map VersionedSchema.name := by
  have h : ∀ vs : List VersionedSchema,
      List.filterMap firstVerName (vs.map fun v =>
        ({ out with spec := { out.spec with versions := [v] } } : Crd)) =
      vs.map VersionedSchema.name := by
    intro vs
    induction vs with
    | nil => rfl
    | cons v vs ih => simp [firstVerName, ih]
  simpa [splitCrds] using h out.spec.versions

theorem mem_cons_filter_ne {α : Type} [DecidableEq α] (a : α) (l : List α)
    (ha : a ∈ l) (s : α) :
    (s ∈ a :: l.filter fun x => x ≠ a) ↔ s ∈ l := by
  simp only [List.mem_cons, List.mem_filter, decide_eq_true_eq]
  constructor
  · rintro (rfl | ⟨hs, _⟩)
    · exact ha
    · exact hs
  · intro hs
    by_cases hsa : s = a
    · exact Or.inl hsa
    · exact Or.inr ⟨hs, by simpa using hsa⟩

end KubeCrd
namespace KubeCrd

theorem validate_some_group (g k : String) : ∀ l : List Crd,
    (∀ c ∈ l, c.spec.names.kind = k) →
    (∃ c ∈ l, c.spec.group ≠ g) →
    validate g k l = some CrdError.ApiGroupMismatch := by
  intro l
  induction l with
  | nil => intro _ h; simp at h
  | cons c rest ih =>
    intro hk hex
    simp only [validate]
    by_cases hg : c.spec.group = g
    · rw [if_neg (by simpa using hg), if_neg (by simp [hk c (by simp)])]
      apply ih (fun c' hc' => hk c' (List.mem_cons_of_mem _ hc'))
      obtain ⟨c', hc', hne⟩ := hex
      rcases List.mem_cons.mp hc' with h1 | h2
      · subst h1; exact absurd hg hne
      · exact ⟨c', h2, hne⟩
    · rw [if_pos (by simpa using hg)]

theorem validate_some_kind (g k : String) : ∀ l : List Crd,
    (∀ c ∈ l, c.spec.group = g) →
    (∃ c ∈ l, c.spec.names.kind ≠ k) →
    validate g k l = some CrdError.KindMismatch := by
  intro l
  induction l with
  | nil => intro _ h; simp at h
  | cons c rest ih =>
    intro hg hex
    simp only [validate]
    rw [if_neg (by simp [hg c (by simp)])]
    by_cases hk : c.spec.names.kind = k
    · rw [if_neg (by simpa using hk)]
      apply ih (fun c' hc' => hg c' (List.mem_cons_of_mem _ hc'))
      obtain ⟨c', hc', hne⟩ := hex
      rcases List.mem_cons.mp hc' with h1 | h2
      · subst h1; exact absurd hk hne
      · exact ⟨c', h2, hne⟩
    · rw [if_pos (by simpa using hk)]

end KubeCrd
namespace KubeCrd

/-- C2: merging is independent of the `served` selector — setting it changes
neither the success value nor the error of `merge` — and `merge` never
returns the `MissingServedApi` error for any request. -/
theorem merge_ignores_served (m : CrdMerger) (s v : String) :
    (m.setServed s).merge = m.merge ∧
    m.merge ≠ MergeResult.err (CrdError.MissingServedApi v) := by
  refine ⟨rfl, ?_⟩
  intro h
  rcases merge_err_classified m _ h with h1 | h2 | ⟨g, _, h3⟩ | h4 | h5 <;> simp_all

theorem merge_ignores_served_witness :
    ((CrdMerger.new []).setServed "v1").merge = (CrdMerger.new []).merge ∧
    (CrdMerger.new []).merge ≠ MergeResult.err (CrdError.MissingServedApi "v1") :=
  merge_ignores_served (CrdMerger.new []) "v1" "v1"

/-- C3: consolidation dedups by version name against the root only: for
inputs `[{v1}, {v1}, {v2}]` (the second `v1` a different descriptor instance,
with a different payload) merge succeeds with versions `["v1", "v2"]`; the
second `v1` is silently dropped and no error is raised. -/
theorem merge_root_name_dedup_concrete :
    (CrdMerger.new [mkCrd "g" "K" "v1" 0, mkCrd "g" "K" "v1" 1, mkCrd "g" "K" "v2" 0]).merge
      = MergeResult.ok (mkCrdVs "g" "K" [⟨"v1", 0⟩, ⟨"v2", 0⟩]) ∧
    (mkCrdVs "g" "K" [⟨"v1", 0⟩, ⟨"v2", 0⟩]).spec.versions.map VersionedSchema.name
      = ["v1", "v2"] := ⟨rfl, rfl⟩

/-- C4: with no selectors the root is the first descriptor by position, so
`[{x,Foo,v1}, {x,Foo,v2}]` merges to versions `["v1", "v2"]`; with the root
selector set to `"v2"` the same inputs merge to versions `["v2", "v1"]`. -/
theorem merge_root_selection_concrete :
    (CrdMerger.new [mkCrd "x" "Foo" "v1" 0, mkCrd "x" "Foo" "v2" 0]).merge
      = MergeResult.ok (mkCrdVs "x" "Foo" [⟨"v1", 0⟩, ⟨"v2", 0⟩]) ∧
    ((CrdMerger.new [mkCrd "x" "Foo" "v1" 0, mkCrd "x" "Foo" "v2" 0]).setRoot "v2").merge
      = MergeResult.ok (mkCrdVs "x" "Foo" [⟨"v2", 0⟩, ⟨"v1", 0⟩]) := ⟨rfl, rfl⟩

/-- C5: any input descriptor with a version count other than one makes the
whole merge fail with `TooManyVersions`, whatever the selectors and the other
inputs; the check precedes root resolution and the group/kind checks. -/
theorem merge_too_many_versions (m : CrdMerger) (c : Crd)
    (hc : c ∈ m.crds) (hl : c.spec.versions.length ≠ 1) :
    m.merge = MergeResult.err CrdError.TooManyVersions := by
  have h1 : ¬(m.crds.isEmpty = true) := by
    simp only [List.isEmpty_iff]
    exact List.ne_nil_of_mem hc
  have h2 : (m.crds.any fun c => decide (c.spec.versions.length ≠ 1)) = true := by
    simp only [List.any_eq_true, decide_eq_true_eq]
    exact ⟨c, hc, hl⟩
  unfold CrdMerger.merge
  rw [if_neg h1, if_pos h2]

theorem merge_too_many_versions_witness :
    mkCrdVs "g" "K" [⟨"v1", 0⟩, ⟨"v2", 0⟩] ∈
      (CrdMerger.mk [mkCrd "g" "K" "v0" 0, mkCrdVs "g" "K" [⟨"v1", 0⟩, ⟨"v2", 0⟩]]
        none (some "zzz")).crds ∧
    (mkCrdVs "g" "K" [⟨"v1", 0⟩, ⟨"v2", 0⟩]).spec.versions.length ≠ 1 ∧
    (CrdMerger.mk [mkCrd "g" "K" "v0" 0, mkCrdVs "g" "K" [⟨"v1", 0⟩, ⟨"v2", 0⟩]]
        none (some "zzz")).merge = MergeResult.err CrdError.TooManyVersions :=
  ⟨by simp, by decide,
   merge_too_many_versions
     (CrdMerger.mk [mkCrd "g" "K" "v0" 0, mkCrdVs "g" "K" [⟨"v1", 0⟩, ⟨"v2", 0⟩]]
       none (some "zzz"))
     (mkCrdVs "g" "K" [⟨"v1", 0⟩, ⟨"v2", 0⟩]) (by simp) (by decide)⟩

/-- C6: the empty input list always fails with `MissingCrds` (the spec's
`NoDescriptors`), whatever the `served` and `root` selectors; the emptiness
check is evaluated first, so no other outcome is possible for empty input. -/
theorem merge_empty_input (srv rt : Option String) :
    (CrdMerger.mk [] srv rt).merge = MergeResult.err CrdError.MissingCrds := rfl

/-- C7: on a non-empty input list passing the one-version check, a `root`
selector naming no input's sole version fails with `MissingRootVersion`
carrying exactly the requested name. -/
theorem merge_missing_root_version (crds : List Crd) (g : String) (srv : Option String)
    (hne : crds ≠ [])
    (hlen : ∀ c ∈ crds, c.spec.versions.length = 1)
    (habs : ∀ c ∈ crds, firstVerName c ≠ some g) :
    (CrdMerger.mk crds srv (some g)).merge
      = MergeResult.err (CrdError.MissingRootVersion g) := by
  have hne' : ∀ c ∈ crds, c.spec.versions ≠ [] := fun c hc =>
    length_one_nonempty (hlen c hc)
  simp only [CrdMerger.merge]
  rw [if_neg (by simp [List.isEmpty_iff, hne]),
      if_neg (by rw [any_len_ne_one_false _ hlen]; simp)]
  rw [findRoot_some_none crds g hne' habs]

theorem merge_missing_root_version_witness :
    ([mkCrd "g" "K" "v1" 0] ≠ ([] : List Crd)) ∧
    (∀ c ∈ [mkCrd "g" "K" "v1" 0], c.spec.versions.length = 1) ∧
    (∀ c ∈ [mkCrd "g" "K" "v1" 0], firstVerName c ≠ some "v2") ∧
    (CrdMerger.mk [mkCrd "g" "K" "v1" 0] none (some "v2")).merge
      = MergeResult.err (CrdError.MissingRootVersion "v2") :=
  ⟨by decide, by decide, by decide,
   merge_missing_root_version _ "v2" none (by decide) (by decide) (by decide)⟩

/-- C10: `merge` is total and never panics: the `.unwrap()` taken when `root`
is unset is unreachable (the emptiness check precedes it) and every
`versions[0]` access is guarded by the exactly-one-version check, so every
call returns `ok` or an enumerated error, never `panic`. -/
theorem merge_total (m : CrdMerger) : m.merge ≠ MergeResult.panic :=
  merge_panic_free m

theorem merge_total_witness :
    (CrdMerger.mk [mkCrdVs "g" "K" []] none none).merge ≠ MergeResult.panic :=
  merge_total (CrdMerger.mk [mkCrdVs "g" "K" []] none none)

end KubeCrd
namespace KubeCrd

/-- C1 (counterexample): the claim that the output's remaining elements are
one entry per *distinct* non-root version name fails: for inputs
`[{v1}, {v2}, {v2}]` (all single-version, shared group and kind) merge
succeeds with version names `["v1", "v2", "v2"]`, in which `"v2"` appears
twice. -/
theorem merge_distinct_names_counterexample :
    (CrdMerger.new [mkCrd "g" "K" "v1" 0, mkCrd "g" "K" "v2" 0, mkCrd "g" "K" "v2" 1]).merge
      = MergeResult.ok (mkCrdVs "g" "K" [⟨"v1", 0⟩, ⟨"v2", 0⟩, ⟨"v2", 1⟩]) ∧
    ((mkCrdVs "g" "K" [⟨"v1", 0⟩, ⟨"v2", 0⟩, ⟨"v2", 1⟩]).spec.versions.map
        VersionedSchema.name).count "v2" = 2 := ⟨rfl, by decide⟩

/-- C1 (amended): for every non-empty input list in which every descriptor
has exactly one version and all descriptors share the root's group and kind
(root defaulting to the first input), merge returns Ok of a descriptor whose
version sequence has the root's version name first, followed by the version
of every input whose name differs from the root's, in input order — one
entry per such input, so a non-root name occurring in several inputs appears
several times. -/
theorem merge_output_names_amended (c0 : Crd) (rest : List Crd) (rvn : String)
    (h0 : firstVerName c0 = some rvn)
    (hlen : ∀ c ∈ c0 :: rest, c.spec.versions.length = 1)
    (hgk : ∀ c ∈ c0 :: rest, c.spec.group = c0.spec.group ∧
           c.spec.names.kind = c0.spec.names.kind) :
    ∃ out, (CrdMerger.new (c0 :: rest)).merge = MergeResult.ok out ∧
      out.spec.versions.map VersionedSchema.name =
        rvn :: (((c0 :: rest).filterMap firstVerName).filter fun s => s ≠ rvn) := by
  obtain ⟨rv, hrv⟩ := length_one_elim (hlen c0 (by simp))
  have hrvn : rv.name = rvn := by
    simp [firstVerName, hrv] at h0
    exact h0
  have hval : validate c0.spec.group c0.spec.names.kind (c0 :: rest) = none :=
    (validate_none_iff _ _ _).mpr hgk
  refine ⟨_, merge_ok_none_root c0 rest none rv hrv hlen hval, ?_⟩
  simp only [List.map_cons]
  rw [nonRootVers_names, hrvn]

theorem merge_output_names_amended_witness :
    firstVerName (mkCrd "g" "K" "v1" 0) = some "v1" ∧
    (∃ out, (CrdMerger.new [mkCrd "g" "K" "v1" 0, mkCrd "g" "K" "v2" 0]).merge
        = MergeResult.ok out ∧
      out.spec.versions.map VersionedSchema.name =
        "v1" :: ((([mkCrd "g" "K" "v1" 0, mkCrd "g" "K" "v2" 0]).filterMap
            firstVerName).filter fun s => s ≠ "v1")) :=
  ⟨by decide,
   merge_output_names_amended (mkCrd "g" "K" "v1" 0) [mkCrd "g" "K" "v2" 0] "v1"
     (by decide) (by decide) (by decide)⟩

/-- C8: a successful merge implies every input agreed with the output (hence
the root) on group and kind; with the default root, a group mismatch anywhere
in the input (kinds all agreeing) fails with `ApiGroupMismatch`, and a kind
mismatch anywhere (groups all agreeing) fails with `KindMismatch`. -/
theorem merge_group_kind_agreement :
    (∀ (m : CrdMerger) (out : Crd), m.merge = MergeResult.ok out →
      ∀ c ∈ m.crds, c.spec.group = out.spec.group ∧
        c.spec.names.kind = out.spec.names.kind) ∧
    (∀ (c0 : Crd) (rest : List Crd) (srv : Option String),
      (∀ c ∈ c0 :: rest, c.spec.versions.length = 1) →
      (∀ c ∈ c0 :: rest, c.spec.names.kind = c0.spec.names.kind) →
      (∃ c ∈ c0 :: rest, c.spec.group ≠ c0.spec.group) →
      (CrdMerger.mk (c0 :: rest) srv none).merge
        = MergeResult.err CrdError.ApiGroupMismatch) ∧
    (∀ (c0 : Crd) (rest : List Crd) (srv : Option String),
      (∀ c ∈ c0 :: rest, c.spec.versions.length = 1) →
      (∀ c ∈ c0 :: rest, c.spec.group = c0.spec.group) →
      (∃ c ∈ c0 :: rest, c.spec.names.kind ≠ c0.spec.names.kind) →
      (CrdMerger.mk (c0 :: rest) srv none).merge
        = MergeResult.err CrdError.KindMismatch) := by
  refine ⟨?_, ?_, ?_⟩
  · intro m out h c hc
    obtain ⟨root, rv, hmem, hrv, hlen, hval, hout, _, _⟩ := merge_ok_inv m out h
    have hgk := (validate_none_iff _ _ _).mp hval c hc
    have hg : out.spec.group = root.spec.group := by rw [hout]
    have hk : out.spec.names.kind = root.spec.names.kind := by rw [hout]
    rw [hg, hk]
    exact hgk
  · intro c0 rest srv hlen hk hex
    obtain ⟨rv, hrv⟩ := length_one_elim (hlen c0 (by simp))
    have hval : validate c0.spec.group c0.spec.names.kind (c0 :: rest)
        = some CrdError.ApiGroupMismatch :=
      validate_some_group _ _ _ hk hex
    simp only [CrdMerger.merge]
    rw [if_neg (by simp), if_neg (by rw [any_len_ne_one_false _ hlen]; simp)]
    exact mergeWithRoot_err (c0 :: rest) c0 _ rv [] hrv hval
  · intro c0 rest srv hlen hg hex
    obtain ⟨rv, hrv⟩ := length_one_elim (hlen c0 (by simp))
    have hval : validate c0.spec.group c0.spec.names.kind (c0 :: rest)
        = some CrdError.KindMismatch :=
      validate_some_kind _ _ _ hg hex
    simp only [CrdMerger.merge]
    rw [if_neg (by simp), if_neg (by rw [any_len_ne_one_false _ hlen]; simp)]
    exact mergeWithRoot_err (c0 :: rest) c0 _ rv [] hrv hval

theorem merge_group_kind_agreement_witness :
    ((mkCrd "x" "Foo" "v1" 0).spec.group = (mkCrdVs "x" "Foo" [⟨"v1", 0⟩]).spec.group ∧
     (mkCrd "x" "Foo" "v1" 0).spec.names.kind
       = (mkCrdVs "x" "Foo" [⟨"v1", 0⟩]).spec.names.kind) ∧
    (CrdMerger.mk [mkCrd "x" "Foo" "v1" 0, mkCrd "y" "Foo" "v2" 0] none none).merge
      = MergeResult.err CrdError.ApiGroupMismatch ∧
    (CrdMerger.mk [mkCrd "x" "Foo" "v1" 0, mkCrd "x" "Bar" "v2" 0] none none).merge
      = MergeResult.err CrdError.KindMismatch := by
  refine ⟨?_, ?_, ?_⟩
  · exact merge_group_kind_agreement.1 (CrdMerger.new [mkCrd "x" "Foo" "v1" 0])
      (mkCrdVs "x" "Foo" [⟨"v1", 0⟩]) rfl (mkCrd "x" "Foo" "v1" 0) (by decide)
  · exact merge_group_kind_agreement.2.1 (mkCrd "x" "Foo" "v1" 0)
      [mkCrd "y" "Foo" "v2" 0] none (by decide) (by decide)
      ⟨mkCrd "y" "Foo" "v2" 0, by simp, by decide⟩
  · exact merge_group_kind_agreement.2.2 (mkCrd "x" "Foo" "v1" 0)
      [mkCrd "x" "Bar" "v2" 0] none (by decide) (by decide)
      ⟨mkCrd "x" "Bar" "v2" 0, by simp, by decide⟩

end KubeCrd
namespace KubeCrd

theorem merge_splitCrds (out : Crd) (rv : VersionedSchema) (vs : List VersionedSchema)
    (houtv : out.spec.versions = rv :: vs) (srv rsel : Option String)
    (hsel : rsel = none ∨ rsel = some rv.name) :
    ∃ out2, (CrdMerger.mk (splitCrds out) srv rsel).merge = MergeResult.ok out2 ∧
      out2.spec.versions.map VersionedSchema.name =
        rv.name :: ((out.spec.versions.map VersionedSchema.name).filter
          fun s => s ≠ rv.name) := by
  have hsplit : splitCrds out =
      ({ out with spec := { out.spec with versions := [rv] } } : Crd) ::
        vs.map fun v =>
          ({ out with spec := { out.spec with versions := [v] } } : Crd) := by
    simp [splitCrds, houtv]
  have hlen2 : ∀ c ∈ splitCrds out, c.spec.versions.length = 1 := splitCrds_len out
  have hval2 : validate out.spec.group out.spec.names.kind (splitCrds out) = none :=
    (validate_none_iff _ _ _).mpr (splitCrds_group_kind out)
  rcases hsel with h | h
  · subst h
    have hmerge := merge_ok_none_root
      ({ out with spec := { out.spec with versions := [rv] } } : Crd)
      (vs.map fun v => ({ out with spec := { out.spec with versions := [v] } } : Crd))
      srv rv rfl (by rw [← hsplit]; exact hlen2) (by rw [← hsplit]; exact hval2)
    rw [← hsplit] at hmerge
    refine ⟨_, hmerge, ?_⟩
    simp only [List.map_cons]
    rw [nonRootVers_names, splitCrds_firstVerNames]
  · subst h
    have hne : splitCrds out ≠ [] := by
      rw [hsplit]
      simp
    have hfind : findRoot rv.name (splitCrds out) =
        some (some ({ out with spec := { out.spec with versions := [rv] } } : Crd)) := by
      rw [hsplit]
      simp [findRoot]
    refine ⟨_, merge_ok_some_root (splitCrds out) srv rv.name _ rv hne hfind rfl
      hlen2 hval2, ?_⟩
    simp only [List.map_cons]
    rw [nonRootVers_names, splitCrds_firstVerNames]

/-- C9: merging is idempotent on the version-name set: splitting a successful
merge's output into one single-version descriptor per output version (each
carrying the output's metadata) and re-merging with the same root selection
succeeds, and its version sequence carries the same set of version names. -/
theorem merge_idempotent_on_version_names (m : CrdMerger) (out : Crd)
    (h : m.merge = MergeResult.ok out) :
    ∃ out2, (CrdMerger.mk (splitCrds out) m.served m.root).merge
        = MergeResult.ok out2 ∧
      ∀ s, s ∈ out2.spec.versions.map VersionedSchema.name ↔
           s ∈ out.spec.versions.map VersionedSchema.name := by
  obtain ⟨root, rv, hmem, hrv, hlen, hval, hout, hsome, hnone⟩ := merge_ok_inv m out h
  have houtv : out.spec.versions = rv :: nonRootVers rv.name m.crds := by rw [hout]
  have hsel : m.root = none ∨ m.root = some rv.name := by
    cases hms : m.root with
    | none => exact Or.inl rfl
    | some g => exact Or.inr (by rw [hsome g hms])
  obtain ⟨out2, hmerge2, hnames⟩ :=
    merge_splitCrds out rv (nonRootVers rv.name m.crds) houtv m.served m.root hsel
  refine ⟨out2, hmerge2, ?_⟩
  intro s
  rw [hnames]
  exact mem_cons_filter_ne rv.name _ (by rw [houtv]; simp) s

theorem merge_idempotent_on_version_names_witness :
    (CrdMerger.new [mkCrd "x" "Foo" "v1" 0, mkCrd "x" "Foo" "v2" 0]).merge
      = MergeResult.ok (mkCrdVs "x" "Foo" [⟨"v1", 0⟩, ⟨"v2", 0⟩]) ∧
    (∃ out2, (CrdMerger.mk (splitCrds (mkCrdVs "x" "Foo" [⟨"v1", 0⟩, ⟨"v2", 0⟩]))
          none none).merge = MergeResult.ok out2 ∧
      ∀ s, s ∈ out2.spec.versions.map VersionedSchema.name ↔
           s ∈ (mkCrdVs "x" "Foo" [⟨"v1", 0⟩, ⟨"v2", 0⟩]).spec.versions.map
             VersionedSchema.name) :=
  ⟨rfl, merge_idempotent_on_version_names
    (CrdMerger.new [mkCrd "x" "Foo" "v1" 0, mkCrd "x" "Foo" "v2" 0])
    (mkCrdVs "x" "Foo" [⟨"v1", 0⟩, ⟨"v2", 0⟩]) rfl⟩

end KubeCrd
